import Mathlib

/-!
Verification development for `src/meilisearch/src/routes/multi_search.rs`.

The file shallowly embeds the two components of that route:
* `merge_by_normalized_score` — the k-way merge of per-query ranked hit
  lists (source lines 147–179);
* `multi_search_with_post` — the per-query authorization / dispatch loop
  with indexed error attribution (source lines 58–145).

Machine-level conventions of the embedding:
* ranking scores (`Ord`-comparable numerics in the source) are rationals;
* a Rust panic (`unwrap` on `None`, `todo!`) is modelled by `Option.none`
  respectively by the `HandlerOutcome.panicked` constructor;
* the external collaborators (authorization store, index catalog, search
  engine, tenant-token query rewriting) are opaque capabilities in the
  source (`index_scheduler.filters()`, `index_scheduler.index`,
  `perform_search`, `add_search_rules`); they are parameters of the
  embedding, collected in an `Env` record;
* the order of collaborator invocations, which the source fixes by its
  sequential `for` loop, is recorded in an explicit event log.
-/

/-- Ranking scores: the source sorts hits with `sort_by_key` on
`ranking_score`, so the score type is a totally ordered numeric; we use `ℚ`. -/
abbrev Score := ℚ

/-- One result record (`SearchHit` in `crate::search`): a consumer payload
(modelled by a document id) plus an optional ranking score, which is the only
field the code under study reads. -/
structure SearchHit where
  docid : Nat
  ranking_score : Option Score
deriving DecidableEq

/-- The part of a per-query search result that this route consumes: its
ranked hit list (`result.hits` in the source). -/
structure SearchResult where
  hits : List SearchHit
deriving DecidableEq

/-- Source struct `SearchResultWithIndex` (from `crate::search`): one query's
result paired with the originating index identifier. -/
structure SearchResultWithIndex where
  index_uid : String
  result : SearchResult
deriving DecidableEq

/-- Source struct `SearchHitWithIndex` (lines 33–39): a merged hit annotated
with its source index identifier. -/
structure SearchHitWithIndex where
  index_uid : String
  hit : SearchHit
deriving DecidableEq

/-- One live cursor of the merge (source line 151–158): the tuple
`(index_uid, it, next)` — owning index identifier, remaining unconsumed
hits, and the peeked head hit. -/
structure Cursor where
  index_uid : String
  it : List SearchHit
  next : SearchHit
deriving DecidableEq

/-- Ascending comparison of cursors by peeked score, the key order of
`iterators.sort_by_key(|(_, _, peeked)| peeked.ranking_score.unwrap())`.
The `getD 0` default is only ever evaluated under a proof that every
compared head carries a score (`sortCursors?` guards it). -/
def cursorLE (a b : Cursor) : Prop :=
  a.next.ranking_score.getD 0 ≤ b.next.ranking_score.getD 0

instance : DecidableRel cursorLE := fun a b =>
  inferInstanceAs (Decidable (a.next.ranking_score.getD 0 ≤ b.next.ranking_score.getD 0))

instance : IsTotal Cursor cursorLE := ⟨fun _ _ => le_total _ _⟩

instance : IsTrans Cursor cursorLE := ⟨fun _ _ _ hab hbc => le_trans hab hbc⟩

/-- Source line 163: `iterators.sort_by_key(|(_, _, peeked)| peeked.ranking_score.unwrap())`.
Rust's `sort_by_key` evaluates the key closure only inside comparisons, and
a stable sort of a slice with fewer than two elements performs no
comparisons, so the `unwrap` can only panic when at least two cursors are
live; with two or more, every element takes part in at least one comparison,
so a peeked hit lacking a score panics (modelled by `none`). Otherwise the
cursor list is stably sorted, ascending by score: a stable sort's output is
uniquely determined by the key order, so the stable `insertionSort` computes
the identical list (and is the identity on lists of length below two). -/
def sortCursors? (iterators : List Cursor) : Option (List Cursor) :=
  if 2 ≤ iterators.length ∧ ¬ iterators.all fun c => c.next.ranking_score.isSome then
    none
  else
    some (iterators.insertionSort cursorLE)

/-- Source lines 170–175: after the maximal cursor `c` (the last of the
ascending-sorted list) has its head emitted, either its peeked slot is
replaced by the next hit (`*next = next_hit`) or, when its iterator is
exhausted, the cursor is popped off the end of the list. -/
def advance (sorted : List Cursor) (c : Cursor) : List Cursor :=
  match c.it with
  | next_hit :: t => sorted.dropLast ++ [⟨c.index_uid, t, next_hit⟩]
  | [] => sorted.dropLast

/-- Source lines 162–177: the `for _ in 0..max_hits` loop. Each iteration
sorts the live cursors ascending by peeked score, takes the last (maximal)
cursor — breaking if none remain — emits its head annotated with its index
identifier, and advances it. `none` models the panic of the score `unwrap`
inside the sort. -/
def mergeLoop (n : Nat) (iterators : List Cursor) : Option (List SearchHitWithIndex) :=
  match n with
  | 0 => some []
  | n + 1 =>
    match sortCursors? iterators with
    | none => none
    | some sorted =>
      match sorted.getLast? with
      | none => some []
      | some c =>
        (mergeLoop n (advance sorted c)).map fun hs => ⟨c.index_uid, c.next⟩ :: hs

/-- The `filter_map` closure of source lines 152–158: build a cursor from one
per-query result, or drop it when its hit list is empty (`let next = it.next()?`). -/
def initCursor (r : SearchResultWithIndex) : Option Cursor :=
  match r.result.hits with
  | [] => none
  | next :: it => some ⟨r.index_uid, it, next⟩

/-- Source lines 147–179, `merge_by_normalized_score`: build one cursor per
non-empty per-query result, then run the selection loop up to `max_hits`
times. -/
def merge_by_normalized_score (search_results : List SearchResultWithIndex)
    (max_hits : Nat) : Option (List SearchHitWithIndex) :=
  let iterators := search_results.filterMap initCursor
  mergeLoop max_hits iterators

/-- Opaque executable index handle, as produced by `index_scheduler.index`. -/
abbrev Index := Nat

/-- Opaque tenant-token scoping rules, as produced by
`index_scheduler.filters().get_index_search_rules`. -/
abbrev SearchRules := String

/-- The part of `SearchQueryWithIndex` (from `crate::search`) that this route
reads: the target index identifier and, for the `max_hits` computation at
source lines 66–70, the `limit` and `hits_per_page` fields. The remaining
query parameters are opaque to this route; a `filter` field stands for them
(it is only threaded through the opaque `add_search_rules` rewriting). -/
structure SearchQueryWithIndex where
  index_uid : String
  limit : Nat
  hits_per_page : Option Nat
  filter : Option String
deriving DecidableEq

/-- Source enum `MergeStrategy` (lines 49–56). -/
inductive MergeStrategy where
  | None
  | ByNormalizedScore
  | ByScoreDetails
deriving DecidableEq

/-- Source struct `SearchQueries` (lines 41–47): the deserialized request
body. -/
structure SearchQueries where
  queries : List SearchQueryWithIndex
  merge_strategy : MergeStrategy
deriving DecidableEq

/-- Source type `ResponseError` (from `meilisearch_types`): a message and an
HTTP status code, the two fields this route manipulates (lines 100–103 patch
the code, line 130 rewrites the message). -/
structure ResponseError where
  message : String
  code : Nat
deriving DecidableEq

/-- One collaborator invocation made by the dispatch loop, recorded so that
the order of authorization checks, index resolutions and query executions is
part of the model. -/
inductive EventKind where
  | authCheck (index_uid : String)
  | resolveIndex (index_uid : String)
  | execute (index_uid : String)
deriving DecidableEq

/-- The opaque external collaborators of the route, per §1 of the design:
the authorization capability (`is_index_authorized`,
`get_index_search_rules` and the `ResponseError` image of
`AuthenticationError::InvalidToken`), the query rewriting
(`add_search_rules`), the index catalog (`index`) and the search engine
(`perform_search`, which also absorbs the `spawn_blocking` join error the
source converts with `with_index` at line 109). -/
structure Env where
  is_index_authorized : String → Bool
  get_index_search_rules : String → Option SearchRules
  add_search_rules : SearchQueryWithIndex → SearchRules → SearchQueryWithIndex
  index : String → Except ResponseError Index
  perform_search : Index → SearchQueryWithIndex → Except ResponseError SearchResult
  invalid_token : ResponseError

/-- Source lines 89–94: apply the search rules from the tenant token, when
the authorization capability supplies some for the target index, by the
opaque `add_search_rules` rewriting. -/
def rewriteQuery (env : Env) (q : SearchQueryWithIndex) : SearchQueryWithIndex :=
  match env.get_index_search_rules q.index_uid with
  | some search_rules => env.add_search_rules q search_rules
  | none => q

/-- The body of the dispatch loop for one query (source lines 85–114),
without the position tagging: authorization check first (line 86, failing
with the `InvalidToken` error), then tenant-token rule rewriting
(`rewriteQuery`), then index resolution with the 404→400 status patch
(lines 96–105), then execution (lines 106–113). The second component
records which collaborators were invoked, in order. -/
def processQuery (env : Env) (q : SearchQueryWithIndex) :
    Except ResponseError SearchResultWithIndex × List EventKind :=
  if env.is_index_authorized q.index_uid = false then
    (.error env.invalid_token, [.authCheck q.index_uid])
  else
    match env.index q.index_uid with
    | .error err =>
      (.error { err with code := 400 }, [.authCheck q.index_uid, .resolveIndex q.index_uid])
    | .ok index =>
      match env.perform_search index (rewriteQuery env q) with
      | .error err =>
        (.error err,
          [.authCheck q.index_uid, .resolveIndex q.index_uid, .execute q.index_uid])
      | .ok result =>
        (.ok ⟨q.index_uid, result⟩,
          [.authCheck q.index_uid, .resolveIndex q.index_uid, .execute q.index_uid])

/-- Source lines 77–119: the `for (query_index, …) in queries … .enumerate()`
loop. Each failure is paired with its 0-based position by `with_index` and
aborts the loop; successes are pushed in input order. The event log tags
every collaborator invocation with the position it served. -/
def multiSearchLoop (env : Env) (query_index : Nat) (queries : List SearchQueryWithIndex) :
    Except (ResponseError × Nat) (List SearchResultWithIndex) × List (Nat × EventKind) :=
  match queries with
  | [] => (.ok [], [])
  | q :: qs =>
    let step := processQuery env q
    let evs := step.2.map fun k => (query_index, k)
    match step.1 with
    | .error err => (.error (err, query_index), evs)
    | .ok r =>
      let rest := multiSearchLoop env (query_index + 1) qs
      (rest.1.map fun rs => r :: rs, evs ++ rest.2)

/-- Source struct `SearchResults` (lines 26–31): the response body. The
`aggregate_hits` field is serialized with
`skip_serializing_if = "Option::is_none"`, so `none` models the field being
omitted entirely from the payload. -/
structure SearchResults where
  aggregate_hits : Option (List SearchHitWithIndex)
  results : List SearchResultWithIndex
deriving DecidableEq

/-- The observable outcome of the handler: a Rust panic with its message, an
`Err(ResponseError)` (which actix turns into a single error response carrying
no results), or an `Ok` JSON payload. -/
inductive HandlerOutcome where
  | panicked (msg : String)
  | failed (err : ResponseError)
  | ok (res : SearchResults)
deriving DecidableEq

/-- The message of the Rust panic raised by `Option::unwrap` on `None`. -/
def unwrapNoneMsg : String := "called `Option::unwrap()` on a `None` value"

/-- The message of the Rust panic raised by `todo!()`. -/
def todoMsg : String := "not yet implemented"

/-- Source lines 58–145, `multi_search_with_post`: compute `max_hits` as the
maximum over the queries of `hits_per_page.unwrap_or(limit)` — the `unwrap`
at line 70 panics on an empty batch; run the dispatch loop; on failure
rewrite the error message with the failing position (line 130) and return the
error; on success build the response, where the `None` strategy omits the
merged list, `ByScoreDetails` hits `todo!()`, and `ByNormalizedScore` runs
the merge (whose own score `unwrap` panic propagates). The analytics calls
(lines 72, 121–124) are a fire-and-forget side channel excluded from the
model. -/
def multi_search_with_post (env : Env) (params : SearchQueries) :
    HandlerOutcome × List (Nat × EventKind) :=
  let queries := params.queries
  let merge_strategy := params.merge_strategy
  match (queries.map fun q => q.hits_per_page.getD q.limit).max? with
  | none => (.panicked unwrapNoneMsg, [])
  | some max_hits =>
    let dispatched := multiSearchLoop env 0 queries
    match dispatched.1 with
    | .error (err, query_index) =>
      (.failed { err with
          message := "Inside `.queries[" ++ toString query_index ++ "]`: " ++ err.message },
        dispatched.2)
    | .ok search_results =>
      match merge_strategy with
      | .None => (.ok ⟨none, search_results⟩, dispatched.2)
      | .ByScoreDetails => (.panicked todoMsg, dispatched.2)
      | .ByNormalizedScore =>
        match merge_by_normalized_score search_results max_hits with
        | none => (.panicked unwrapNoneMsg, dispatched.2)
        | some hits => (.ok ⟨some hits, search_results⟩, dispatched.2)

/-- Score of a hit with a default, used to state ordering properties; the
theorems only apply it to hits that carry a score. -/
def scoreD (h : SearchHit) : Score := h.ranking_score.getD 0

/-- The hit list is sorted by weakly descending score. -/
abbrev hitsSortedDesc (l : List SearchHit) : Prop :=
  l.Pairwise fun a b => scoreD b ≤ scoreD a

/-- The annotated output list is sorted by weakly descending score. -/
abbrev outputSortedDesc (l : List SearchHitWithIndex) : Prop :=
  l.Pairwise fun a b => scoreD b.hit ≤ scoreD a.hit

/-- `IsMergeOf srcs out` states that `out` is a valid interleaving of the
source lists `srcs`: each emitted entry is the head of the remaining hits of
one of the sources, annotated with that source's index identifier, and that
source is advanced past it — hence every emitted hit appeared in its source
list and hits drawn from one source keep their relative order. Sources need
not be consumed completely. -/
inductive IsMergeOf : List (String × List SearchHit) → List SearchHitWithIndex → Prop where
  | nil (srcs : List (String × List SearchHit)) : IsMergeOf srcs []
  | cons (pre post : List (String × List SearchHit)) (index_uid : String) (h : SearchHit)
      (t : List SearchHit) (out : List SearchHitWithIndex) :
      IsMergeOf (pre ++ (index_uid, t) :: post) out →
      IsMergeOf (pre ++ (index_uid, h :: t) :: post) (⟨index_uid, h⟩ :: out)

/-- The per-query results viewed as merge sources. -/
def sourcesOf (search_results : List SearchResultWithIndex) :
    List (String × List SearchHit) :=
  search_results.map fun r => (r.index_uid, r.result.hits)

/-- Total number of hits across all per-query results. -/
def totalHits (search_results : List SearchResultWithIndex) : Nat :=
  (search_results.map fun r => r.result.hits.length).sum

/-- Number of hits still owned by a cursor (peeked head plus remainder). -/
def cursorSize (c : Cursor) : Nat := c.it.length + 1

/-- A cursor viewed as its merge source: its index identifier together with
all hits it still owns. -/
def srcOf (c : Cursor) : String × List SearchHit := (c.index_uid, c.next :: c.it)

/-- Concrete hits used by the concrete-input theorems: the spec's worked
example `A:[0.9, 0.5]`, `B:[0.8, 0.7]`. -/
def hitA1 : SearchHit := ⟨1, some (mkRat 9 10)⟩

def hitA2 : SearchHit := ⟨2, some (mkRat 5 10)⟩

def hitB1 : SearchHit := ⟨3, some (mkRat 8 10)⟩

def hitB2 : SearchHit := ⟨4, some (mkRat 7 10)⟩

/-- The spec's worked example input: two per-query results with scored hits
`A:[0.9, 0.5]` and `B:[0.8, 0.7]`. -/
def resultsAB : List SearchResultWithIndex :=
  [⟨"A", ⟨[hitA1, hitA2]⟩⟩, ⟨"B", ⟨[hitB1, hitB2]⟩⟩]

/-- Concrete input with one source list that is NOT sorted by descending
score (all hits scored). -/
def resultsUnsorted : List SearchResultWithIndex :=
  [⟨"A", ⟨[⟨1, some (mkRat 1 10)⟩, ⟨2, some (mkRat 9 10)⟩]⟩⟩]

/-- Concrete input whose second hit lacks a score. -/
def resultsLateUnscored : List SearchResultWithIndex :=
  [⟨"A", ⟨[⟨1, some (mkRat 9 10)⟩, ⟨2, none⟩]⟩⟩]

/-- Concrete input with two non-empty per-query results where the first
result's head hit lacks a score. -/
def resultsTwoHeadUnscored : List SearchResultWithIndex :=
  [⟨"A", ⟨[⟨1, none⟩]⟩⟩, ⟨"B", ⟨[⟨2, some (mkRat 8 10)⟩]⟩⟩]

/-- Concrete environment: every index authorized, no tenant rules, every
index resolves, every search returns an empty hit list. -/
def envTrivial : Env :=
  ⟨fun _ => true, fun _ => none, fun q _ => q, fun _ => .ok 0,
    fun _ _ => .ok ⟨[]⟩, ⟨"The provided API key is invalid.", 403⟩⟩

/-- Concrete environment identical to `envTrivial` except that the index
named `gamma` is not authorized. -/
def envDenyGamma : Env :=
  ⟨fun uid => uid != "gamma", fun _ => none, fun q _ => q, fun _ => .ok 0,
    fun _ _ => .ok ⟨[]⟩, ⟨"The provided API key is invalid.", 403⟩⟩

/-- Concrete queries targeting indexes `alpha`, `beta`, `gamma`. -/
def queryAlpha : SearchQueryWithIndex := ⟨"alpha", 20, none, none⟩

def queryBeta : SearchQueryWithIndex := ⟨"beta", 20, none, none⟩

def queryGamma : SearchQueryWithIndex := ⟨"gamma", 20, none, none⟩

theorem sortCursors?_eq_some {cs sorted : List Cursor}
    (h : sortCursors? cs = some sorted) :
    sorted = cs.insertionSort cursorLE := by
  unfold sortCursors? at h
  split at h
  next => simp at h
  next => exact (Option.some.inj h).symm

theorem sortCursors?_perm {cs sorted : List Cursor}
    (h : sortCursors? cs = some sorted) : sorted.Perm cs := by
  obtain rfl := sortCursors?_eq_some h
  exact List.perm_insertionSort cursorLE cs

theorem sortCursors?_sorted {cs sorted : List Cursor}
    (h : sortCursors? cs = some sorted) : List.Sorted cursorLE sorted := by
  obtain rfl := sortCursors?_eq_some h
  exact List.sorted_insertionSort cursorLE cs

theorem getLast?_decomp {α : Type _} {l : List α} {c : α} (h : l.getLast? = some c) :
    l = l.dropLast ++ [c] :=
  (List.dropLast_append_getLast? c h).symm

theorem getLast?_mem {α : Type _} {l : List α} {c : α} (h : l.getLast? = some c) :
    c ∈ l := by
  have hd := getLast?_decomp h
  rw [hd]
  simp

theorem sorted_getLast?_max {l : List Cursor} {c : Cursor}
    (hs : List.Sorted cursorLE l) (h : l.getLast? = some c) :
    ∀ x ∈ l, cursorLE x c := by
  induction l with
  | nil => simp at h
  | cons a t ih =>
    cases t with
    | nil =>
      simp only [List.getLast?_singleton, Option.some.injEq] at h
      subst h
      intro x hx
      simp only [List.mem_singleton] at hx
      subst hx
      exact le_refl _
    | cons b t2 =>
      rw [List.getLast?_cons_cons] at h
      rw [List.sorted_cons] at hs
      intro x hx
      rcases List.mem_cons.mp hx with rfl | hx2
      · exact hs.1 c (getLast?_mem h)
      · exact ih hs.2 h x hx2

theorem advance_cases {sorted : List Cursor} {c d : Cursor}
    (hd : d ∈ advance sorted c) :
    d ∈ sorted.dropLast ∨ ∃ nh t, c.it = nh :: t ∧ d = ⟨c.index_uid, t, nh⟩ := by
  cases hit : c.it with
  | nil =>
    simp only [advance, hit] at hd
    exact Or.inl hd
  | cons nh t =>
    simp only [advance, hit, List.mem_append, List.mem_singleton] at hd
    rcases hd with hd | hd
    · exact Or.inl hd
    · exact Or.inr ⟨nh, t, rfl, hd⟩

theorem mergeLoop_total {n : Nat} {cs : List Cursor}
    (h : ∀ c ∈ cs, ∀ x ∈ c.next :: c.it, x.ranking_score.isSome) :
    ∃ out, mergeLoop n cs = some out := by
  induction n generalizing cs with
  | zero => exact ⟨[], rfl⟩
  | succ n ih =>
    have hcond : (cs.all fun c => c.next.ranking_score.isSome) = true := by
      simp only [List.all_eq_true]
      intro c hc
      exact h c hc c.next (List.mem_cons_self _ _)
    have hsort : sortCursors? cs = some (cs.insertionSort cursorLE) := by
      unfold sortCursors?
      rw [if_neg (by simp [hcond])]
    have hperm := List.perm_insertionSort cursorLE cs
    cases hgl : (cs.insertionSort cursorLE).getLast? with
    | none => exact ⟨[], by simp [mergeLoop, hsort, hgl]⟩
    | some c =>
      have hc : c ∈ cs := hperm.mem_iff.mp (getLast?_mem hgl)
      have hadv : ∀ d ∈ advance (cs.insertionSort cursorLE) c,
          ∀ x ∈ d.next :: d.it, x.ranking_score.isSome := by
        intro d hd
        rcases advance_cases hd with hdl | ⟨nh, t, hit, rfl⟩
        · exact h d (hperm.mem_iff.mp ((List.dropLast_sublist _).subset hdl))
        · intro x hx
          apply h c hc
          have hx2 : x ∈ c.it := by rw [hit]; exact hx
          exact List.mem_cons_of_mem _ hx2
      obtain ⟨out, hout⟩ := ih hadv
      exact ⟨⟨c.index_uid, c.next⟩ :: out, by simp [mergeLoop, hsort, hgl, hout]⟩

theorem advance_sum {sorted : List Cursor} {c : Cursor}
    (h : sorted.getLast? = some c) :
    ((advance sorted c).map cursorSize).sum + 1 = (sorted.map cursorSize).sum := by
  have hdecomp := getLast?_decomp h
  have hdl : sorted.dropLast = sorted.dropLast := rfl
  cases hit : c.it with
  | nil =>
    conv_rhs => rw [hdecomp]
    simp [advance, hit, cursorSize]
  | cons nh t =>
    conv_rhs => rw [hdecomp]
    simp [advance, hit, cursorSize]
    omega

theorem mergeLoop_length {n : Nat} {cs : List Cursor} {out : List SearchHitWithIndex}
    (h : mergeLoop n cs = some out) :
    out.length = min n ((cs.map cursorSize).sum) := by
  induction n generalizing cs out with
  | zero =>
    simp only [mergeLoop, Option.some.injEq] at h
    subst h
    simp
  | succ n ih =>
    cases hsort : sortCursors? cs with
    | none => simp [mergeLoop, hsort] at h
    | some sorted =>
      have hperm := sortCursors?_perm hsort
      cases hgl : sorted.getLast? with
      | none =>
        have hnil : sorted = [] := by simpa using hgl
        subst hnil
        have hcs : cs = [] := hperm.symm.eq_nil
        subst hcs
        simp only [mergeLoop, hsort, hgl, Option.some.injEq] at h
        subst h
        simp
      | some c =>
        simp only [mergeLoop, hsort, hgl, Option.map_eq_some'] at h
        obtain ⟨out', hout', rfl⟩ := h
        have hsum : ((advance sorted c).map cursorSize).sum + 1
            = (sorted.map cursorSize).sum := advance_sum hgl
        have hsum2 : (sorted.map cursorSize).sum = (cs.map cursorSize).sum :=
          (hperm.map cursorSize).sum_eq
        have hlen := ih hout'
        simp only [List.length_cons]
        omega

theorem mergeLoop_desc {n : Nat} {cs : List Cursor} {out : List SearchHitWithIndex}
    (hsrc : ∀ c ∈ cs, hitsSortedDesc (c.next :: c.it))
    (h : mergeLoop n cs = some out) :
    outputSortedDesc out ∧ ∀ x ∈ out, ∃ c ∈ cs, scoreD x.hit ≤ scoreD c.next := by
  induction n generalizing cs out with
  | zero =>
    simp only [mergeLoop, Option.some.injEq] at h
    subst h
    exact ⟨List.Pairwise.nil, by simp⟩
  | succ n ih =>
    cases hsort : sortCursors? cs with
    | none => simp [mergeLoop, hsort] at h
    | some sorted =>
      have hperm := sortCursors?_perm hsort
      have hsorted := sortCursors?_sorted hsort
      cases hgl : sorted.getLast? with
      | none =>
        simp only [mergeLoop, hsort, hgl, Option.some.injEq] at h
        subst h
        exact ⟨List.Pairwise.nil, by simp⟩
      | some c =>
        simp only [mergeLoop, hsort, hgl, Option.map_eq_some'] at h
        obtain ⟨out', hout', rfl⟩ := h
        have hmax : ∀ x ∈ sorted, cursorLE x c := sorted_getLast?_max hsorted hgl
        have hc_cs : c ∈ cs := hperm.mem_iff.mp (getLast?_mem hgl)
        have hchead : ∀ y ∈ c.it, scoreD y ≤ scoreD c.next :=
          (List.pairwise_cons.mp (hsrc c hc_cs)).1
        have hsrc' : ∀ d ∈ advance sorted c, hitsSortedDesc (d.next :: d.it) := by
          intro d hd
          rcases advance_cases hd with hdl | ⟨nh, t, hit, rfl⟩
          · exact hsrc d (hperm.mem_iff.mp ((List.dropLast_sublist _).subset hdl))
          · have h2 : List.Pairwise (fun a b => scoreD b ≤ scoreD a) c.it :=
              List.Pairwise.of_cons (hsrc c hc_cs)
            rw [hit] at h2
            exact h2
        have hheads : ∀ d ∈ advance sorted c, scoreD d.next ≤ scoreD c.next := by
          intro d hd
          rcases advance_cases hd with hdl | ⟨nh, t, hit, rfl⟩
          · exact hmax d ((List.dropLast_sublist _).subset hdl)
          · exact hchead nh (by rw [hit]; exact List.mem_cons_self _ _)
        obtain ⟨hdesc', hbound'⟩ := ih hsrc' hout'
        refine ⟨List.pairwise_cons.mpr ⟨?_, hdesc'⟩, ?_⟩
        · intro y hy
          obtain ⟨d, hd, hyd⟩ := hbound' y hy
          exact le_trans hyd (hheads d hd)
        · intro x hx
          rcases List.mem_cons.mp hx with rfl | hx2
          · exact ⟨c, hc_cs, le_refl _⟩
          · obtain ⟨d, hd, hyd⟩ := hbound' x hx2
            rcases advance_cases hd with hdl | ⟨nh, t, hit, rfl⟩
            · exact ⟨d, hperm.mem_iff.mp ((List.dropLast_sublist _).subset hdl), hyd⟩
            · exact ⟨c, hc_cs,
                le_trans hyd (hchead nh (by rw [hit]; exact List.mem_cons_self _ _))⟩

theorem isMergeOf_cons_src {s : List (String × List SearchHit)}
    {out : List SearchHitWithIndex} {x : String × List SearchHit}
    (h : IsMergeOf s out) : IsMergeOf (x :: s) out := by
  induction h with
  | nil srcs => exact .nil _
  | cons pre post uid hh t out hrec ih =>
    exact IsMergeOf.cons (x :: pre) post uid hh t out ih

theorem isMergeOf_perm {s1 s2 : List (String × List SearchHit)}
    {out : List SearchHitWithIndex}
    (hp : s1.Perm s2) (h : IsMergeOf s2 out) : IsMergeOf s1 out := by
  induction h generalizing s1 with
  | nil srcs => exact .nil _
  | cons pre post uid hh t out hrec ih =>
    have hmem : (uid, hh :: t) ∈ s1 := hp.mem_iff.mpr (by simp)
    obtain ⟨pre1, post1, rfl⟩ := List.append_of_mem hmem
    have hp2 : (pre1 ++ post1).Perm (pre ++ post) := by
      have h1 : (pre1 ++ (uid, hh :: t) :: post1).Perm ((uid, hh :: t) :: (pre1 ++ post1)) :=
        List.perm_middle
      have h2 : (pre ++ (uid, hh :: t) :: post).Perm ((uid, hh :: t) :: (pre ++ post)) :=
        List.perm_middle
      exact (h1.symm.trans (hp.trans h2)).cons_inv
    have hp3 : (pre1 ++ (uid, t) :: post1).Perm (pre ++ (uid, t) :: post) :=
      List.perm_middle.trans ((hp2.cons _).trans List.perm_middle.symm)
    exact IsMergeOf.cons pre1 post1 uid hh t out (ih hp3)

theorem isMergeOf_insert {pre post : List (String × List SearchHit)}
    {x : String × List SearchHit} {out : List SearchHitWithIndex}
    (h : IsMergeOf (pre ++ post) out) : IsMergeOf (pre ++ x :: post) out :=
  isMergeOf_perm List.perm_middle (isMergeOf_cons_src h)

theorem mergeLoop_interleave {n : Nat} {cs : List Cursor} {out : List SearchHitWithIndex}
    (h : mergeLoop n cs = some out) :
    IsMergeOf (cs.map srcOf) out := by
  induction n generalizing cs out with
  | zero =>
    simp only [mergeLoop, Option.some.injEq] at h
    subst h
    exact .nil _
  | succ n ih =>
    cases hsort : sortCursors? cs with
    | none => simp [mergeLoop, hsort] at h
    | some sorted =>
      have hperm := sortCursors?_perm hsort
      cases hgl : sorted.getLast? with
      | none =>
        simp only [mergeLoop, hsort, hgl, Option.some.injEq] at h
        subst h
        exact .nil _
      | some c =>
        simp only [mergeLoop, hsort, hgl, Option.map_eq_some'] at h
        obtain ⟨out', hout', rfl⟩ := h
        have hdecomp := getLast?_decomp hgl
        have ihm := ih hout'
        have hmap : IsMergeOf (sorted.map srcOf) (⟨c.index_uid, c.next⟩ :: out') := by
          rw [hdecomp, List.map_append]
          simp only [List.map_cons, List.map_nil, srcOf]
          cases hit : c.it with
          | cons nh t =>
            refine IsMergeOf.cons (sorted.dropLast.map srcOf) [] c.index_uid c.next (nh :: t) out' ?_
            simpa only [advance, hit, List.map_append, List.map_cons, List.map_nil,
              srcOf] using ihm
          | nil =>
            refine IsMergeOf.cons (sorted.dropLast.map srcOf) [] c.index_uid c.next [] out' ?_
            have h3 : IsMergeOf (sorted.dropLast.map srcOf) out' := by
              simpa only [advance, hit] using ihm
            exact isMergeOf_insert (by simpa using h3)
        exact isMergeOf_perm ((hperm.map srcOf).symm) hmap

theorem initCursor_eq_some {r : SearchResultWithIndex} {c : Cursor}
    (h : initCursor r = some c) :
    r.result.hits = c.next :: c.it ∧ c.index_uid = r.index_uid := by
  unfold initCursor at h
  split at h
  next => simp at h
  next next it heq =>
    obtain rfl := Option.some.inj h
    exact ⟨heq, rfl⟩

theorem isMergeOf_restore_empties (s : List (String × List SearchHit))
    (rs : List SearchResultWithIndex) {out : List SearchHitWithIndex}
    (h : IsMergeOf (s ++ (rs.filterMap initCursor).map srcOf) out) :
    IsMergeOf (s ++ sourcesOf rs) out := by
  induction rs generalizing s with
  | nil => simpa [sourcesOf] using h
  | cons r rs ih =>
    cases hit : r.result.hits with
    | nil =>
      have h2 : IsMergeOf (s ++ sourcesOf rs) out :=
        ih s (by simpa [List.filterMap_cons, initCursor, hit] using h)
      have h3 : IsMergeOf (s ++ (r.index_uid, r.result.hits) :: sourcesOf rs) out := by
        rw [hit]
        exact isMergeOf_insert h2
      simpa [sourcesOf] using h3
    | cons next it =>
      have h2 := ih (s ++ [(r.index_uid, r.result.hits)])
        (by simpa [List.filterMap_cons, initCursor, hit, srcOf, List.append_assoc] using h)
      simpa [sourcesOf, List.append_assoc] using h2

theorem cursor_sum_eq_totalHits (rs : List SearchResultWithIndex) :
    ((rs.filterMap initCursor).map cursorSize).sum = totalHits rs := by
  induction rs with
  | nil => rfl
  | cons r rs ih =>
    cases hit : r.result.hits with
    | nil =>
      simp only [List.filterMap_cons, initCursor, hit, totalHits, List.map_cons, List.sum_cons]
      simp only [totalHits] at ih
      simp [hit, ih]
    | cons nh t =>
      simp only [List.filterMap_cons, initCursor, hit, totalHits, List.map_cons, List.sum_cons]
      simp only [totalHits] at ih
      simp [hit, ih, cursorSize]

theorem merge_length {rs : List SearchResultWithIndex} {max_hits : Nat}
    {out : List SearchHitWithIndex}
    (h : merge_by_normalized_score rs max_hits = some out) :
    out.length = min max_hits (totalHits rs) := by
  have h2 : mergeLoop max_hits (rs.filterMap initCursor) = some out := h
  have := mergeLoop_length h2
  rwa [cursor_sum_eq_totalHits] at this

theorem processQuery_auth_denied {env : Env} {q : SearchQueryWithIndex}
    (h : env.is_index_authorized q.index_uid = false) :
    processQuery env q = (.error env.invalid_token, [.authCheck q.index_uid]) := by
  simp [processQuery, h]

theorem processQuery_ok_shape {env : Env} {q : SearchQueryWithIndex}
    {r : SearchResultWithIndex}
    (h : (processQuery env q).1 = Except.ok r) :
    r.index_uid = q.index_uid ∧
    (processQuery env q).2
      = [.authCheck q.index_uid, .resolveIndex q.index_uid, .execute q.index_uid] := by
  unfold processQuery at h ⊢
  cases ha : env.is_index_authorized q.index_uid with
  | false => simp [ha] at h
  | true =>
    cases hidx : env.index q.index_uid with
    | error err => simp [ha, hidx] at h
    | ok index =>
      cases hps : env.perform_search index (rewriteQuery env q) with
      | error err => simp [ha, hidx, hps] at h
      | ok result =>
        simp only [ha, hidx, hps] at h ⊢
        simp only [Bool.true_eq_false, if_false] at h ⊢
        obtain rfl := (Except.ok.inj h).symm
        simp

theorem multiSearchLoop_log {env : Env} {qs : List SearchQueryWithIndex} :
    ∀ i0, ∀ ev ∈ (multiSearchLoop env i0 qs).2, ∃ k, ∃ hk : k < qs.length,
      ev.1 = i0 + k ∧ ev.2 ∈ (processQuery env qs[k]).2 := by
  induction qs with
  | nil => intro i0 ev hev; simp [multiSearchLoop] at hev
  | cons q qs ih =>
    intro i0 ev hev
    cases hres : (processQuery env q).1 with
    | error e =>
      simp only [multiSearchLoop, hres, List.mem_map] at hev
      obtain ⟨k0, hk0, rfl⟩ := hev
      exact ⟨0, by simp, by simp, by simpa using hk0⟩
    | ok r =>
      simp only [multiSearchLoop, hres, List.mem_append, List.mem_map] at hev
      rcases hev with ⟨k0, hk0, rfl⟩ | hev2
      · exact ⟨0, by simp, by simp, by simpa using hk0⟩
      · obtain ⟨k, hk, h1, h2⟩ := ih (i0 + 1) ev hev2
        refine ⟨k + 1, by simpa using hk, by omega, by simpa using h2⟩

theorem multiSearchLoop_first_fail {env : Env} {qs : List SearchQueryWithIndex}
    {e : ResponseError} :
    ∀ i0 k, ∀ hk : k < qs.length,
    (processQuery env qs[k]).1 = .error e →
    (∀ q ∈ qs.take k, ∃ r, (processQuery env q).1 = .ok r) →
    (multiSearchLoop env i0 qs).1 = .error (e, i0 + k) ∧
    ∀ ev ∈ (multiSearchLoop env i0 qs).2, ev.1 ≤ i0 + k := by
  induction qs with
  | nil => intro i0 k hk; exact absurd hk (by simp)
  | cons q qs ih =>
    intro i0 k hk hfail hok
    cases k with
    | zero =>
      have hq : (processQuery env q).1 = .error e := by simpa using hfail
      constructor
      · simp [multiSearchLoop, hq]
      · intro ev hev
        simp only [multiSearchLoop, hq, List.mem_map] at hev
        obtain ⟨k0, -, rfl⟩ := hev
        simp
    | succ k2 =>
      obtain ⟨r, hr⟩ : ∃ r, (processQuery env q).1 = .ok r := by
        have := hok q (by simp)
        exact this
      have hrec := ih (i0 + 1) k2 (by simpa using hk) (by simpa using hfail)
        (by
          intro q2 hq2
          exact hok q2 (by simpa using List.mem_cons_of_mem q (by simpa using hq2)))
      constructor
      · have h1 := hrec.1
        rw [show i0 + (k2 + 1) = i0 + 1 + k2 by omega]
        simp [multiSearchLoop, hr, h1, Except.map]
      · intro ev hev
        simp only [multiSearchLoop, hr, List.mem_append, List.mem_map] at hev
        rcases hev with ⟨k0, -, rfl⟩ | hev2
        · simp
        · have := hrec.2 ev hev2
          omega

theorem multiSearchLoop_all_ok {env : Env} {qs : List SearchQueryWithIndex} :
    ∀ i0, (∀ q ∈ qs, ∃ r, (processQuery env q).1 = .ok r) →
    ∃ results, (multiSearchLoop env i0 qs).1 = .ok results ∧
      results.length = qs.length ∧
      ∀ j, (hj1 : j < qs.length) → (hj2 : j < results.length) →
        (processQuery env qs[j]).1 = .ok results[j] := by
  induction qs with
  | nil => exact fun i0 _ => ⟨[], by simp [multiSearchLoop], rfl, by simp⟩
  | cons q qs ih =>
    intro i0 hok
    obtain ⟨r, hr⟩ := hok q (by simp)
    obtain ⟨results, hres, hlen, hpt⟩ :=
      ih (i0 + 1) (fun q2 hq2 => hok q2 (List.mem_cons_of_mem q hq2))
    refine ⟨r :: results, ?_, by simp [hlen], ?_⟩
    · simp [multiSearchLoop, hr, hres, Except.map]
    · intro j hj1 hj2
      cases j with
      | zero => simpa using hr
      | succ j2 =>
        have := hpt j2 (by simpa using hj1) (by simpa using hj2)
        simpa using this

theorem maxHits_spec {qs : List SearchQueryWithIndex} (h : qs ≠ []) :
    ∃ m, (qs.map fun q => q.hits_per_page.getD q.limit).max? = some m ∧
      (∀ q ∈ qs, q.hits_per_page.getD q.limit ≤ m) ∧
      ∃ q ∈ qs, q.hits_per_page.getD q.limit = m := by
  cases hmax : (qs.map fun q => q.hits_per_page.getD q.limit).max? with
  | none =>
    rw [List.max?_eq_none_iff] at hmax
    exact absurd (by simpa using hmax) h
  | some m =>
    have hs := List.max?_eq_some_iff'.mp hmax
    refine ⟨m, rfl, ?_, ?_⟩
    · intro q hq
      exact hs.2 _ (List.mem_map_of_mem _ hq)
    · obtain ⟨q, hq, hqe⟩ := List.mem_map.mp hs.1
      exact ⟨q, hq, hqe⟩

theorem handler_log (env : Env) (params : SearchQueries)
    (hne : params.queries ≠ []) :
    (multi_search_with_post env params).2 = (multiSearchLoop env 0 params.queries).2 := by
  obtain ⟨m, hm, -, -⟩ := maxHits_spec hne
  simp only [multi_search_with_post, hm]
  cases hd : (multiSearchLoop env 0 params.queries).1 with
  | error pe =>
    obtain ⟨err, qi⟩ := pe
    simp [hd]
  | ok rs =>
    cases hs : params.merge_strategy with
    | None => simp [hd, hs]
    | ByScoreDetails => simp [hd, hs]
    | ByNormalizedScore =>
      cases hmg : merge_by_normalized_score rs m with
      | none => simp [hd, hs, hmg]
      | some hits => simp [hd, hs, hmg]


/-- C9: on the concrete input of two per-query results with scored hits
A:[0.9, 0.5] and B:[0.8, 0.7] and max_hits = 3, merge-by-normalized-score
returns exactly [A:0.9, B:0.8, B:0.7]. -/
theorem C9_concrete_merge_example :
    merge_by_normalized_score resultsAB 3
      = some [⟨"A", hitA1⟩, ⟨"B", hitB1⟩, ⟨"B", hitB2⟩] := by decide

/-- C10: for the empty batch, the handler panics with the `Option::unwrap`
panic while computing `max_hits` (maximum of an empty sequence), before any
authorization, resolution, execution, or merging takes place — the event log
is empty, whatever the environment and the merge strategy. -/
theorem C10_empty_batch_panics (env : Env) (strategy : MergeStrategy) :
    multi_search_with_post env ⟨[], strategy⟩ = (.panicked unwrapNoneMsg, []) := rfl

/-- C1 counterexample: on a single per-query result whose hits all carry
scores but are not listed in descending score order, the merge output is not
sorted by descending score — so the claim, which quantifies over every input
list of scored per-query results, fails as stated. -/
theorem C1_counterexample :
    (∀ r ∈ resultsUnsorted, ∀ x ∈ r.result.hits, x.ranking_score.isSome) ∧
    merge_by_normalized_score resultsUnsorted 2
      = some [⟨"A", ⟨1, some (mkRat 1 10)⟩⟩, ⟨"A", ⟨2, some (mkRat 9 10)⟩⟩] ∧
    ¬ outputSortedDesc [⟨"A", ⟨1, some (mkRat 1 10)⟩⟩, ⟨"A", ⟨2, some (mkRat 9 10)⟩⟩] := by
  refine ⟨by decide, by decide, fun hp => ?_⟩
  have h1 := (List.pairwise_cons.mp hp).1 ⟨"A", ⟨2, some (mkRat 9 10)⟩⟩ (by simp)
  simp only [scoreD, Option.getD_some] at h1
  norm_num at h1

/-- C1 (amended): for every input list of per-query results in which every
hit carries a score AND every per-query hit list is itself sorted by
descending score, and every max_hits, the merge produces an output that is
sorted by descending score and is a valid interleaving of the inputs (every
emitted hit is drawn in order from its source list, annotated with that
source's index identifier). -/
theorem C1_merge_sorted_and_interleaving
    (search_results : List SearchResultWithIndex) (max_hits : Nat)
    (hscored : ∀ r ∈ search_results, ∀ x ∈ r.result.hits, x.ranking_score.isSome)
    (hsorted : ∀ r ∈ search_results, hitsSortedDesc r.result.hits) :
    ∃ out, merge_by_normalized_score search_results max_hits = some out ∧
      outputSortedDesc out ∧ IsMergeOf (sourcesOf search_results) out := by
  have hcur : ∀ c ∈ search_results.filterMap initCursor,
      ∀ x ∈ c.next :: c.it, x.ranking_score.isSome := by
    intro c hc
    obtain ⟨r, hr, hrc⟩ := List.mem_filterMap.mp hc
    obtain ⟨hhits, -⟩ := initCursor_eq_some hrc
    intro x hx
    exact hscored r hr x (by rw [hhits]; exact hx)
  have hcur2 : ∀ c ∈ search_results.filterMap initCursor,
      hitsSortedDesc (c.next :: c.it) := by
    intro c hc
    obtain ⟨r, hr, hrc⟩ := List.mem_filterMap.mp hc
    obtain ⟨hhits, -⟩ := initCursor_eq_some hrc
    have := hsorted r hr
    rw [hhits] at this
    exact this
  obtain ⟨out, hout⟩ :=
    @mergeLoop_total max_hits (search_results.filterMap initCursor) hcur
  refine ⟨out, hout, (mergeLoop_desc hcur2 hout).1, ?_⟩
  have hint := mergeLoop_interleave hout
  exact isMergeOf_restore_empties [] search_results hint

/-- C1 witness: the amended theorem applied to the concrete sorted input of
C9's example. -/
theorem C1_witness :
    ∃ out, merge_by_normalized_score resultsAB 3 = some out ∧
      outputSortedDesc out ∧ IsMergeOf (sourcesOf resultsAB) out :=
  C1_merge_sorted_and_interleaving resultsAB 3 (by decide) (by decide)

/-- C4 counterexample: a per-query result contains a hit without a score,
yet with max_hits = 1 that hit is never examined (it never becomes a cursor
head within the executed iterations), the request does not fail, and a
merged output is produced — so the claim fails as stated. -/
theorem C4_counterexample :
    (∃ r ∈ resultsLateUnscored, ∃ x ∈ r.result.hits, x.ranking_score = none) ∧
    merge_by_normalized_score resultsLateUnscored 1
      = some [⟨"A", ⟨1, some (mkRat 9 10)⟩⟩] := by
  exact ⟨by decide, by decide⟩

/-- C4 (amended): the score `unwrap` runs only inside the comparisons of the
cursor sort, so it can only panic when at least two cursors are live: if at
least two per-query results are non-empty, the first hit of one of them
lacks a score, and max_hits ≥ 1, the whole merge returns none (the request
panics) and no output is produced — no default score is substituted. With a
single live cursor, or a scoreless hit that never becomes a cursor head
within the executed iterations, the `unwrap` never runs and the request
succeeds. -/
theorem C4_unscored_head_fails
    (search_results : List SearchResultWithIndex) (max_hits : Nat)
    (hmax : 1 ≤ max_hits)
    (r r2 : SearchResultWithIndex) (hr : r ∈ search_results)
    (hr2 : r2 ∈ search_results) (hrne : r ≠ r2)
    (hh : SearchHit) (t : List SearchHit) (hhits : r.result.hits = hh :: t)
    (hnone : hh.ranking_score = none)
    (hne2 : r2.result.hits ≠ []) :
    merge_by_normalized_score search_results max_hits = none := by
  obtain ⟨m, rfl⟩ : ∃ m, max_hits = m + 1 := ⟨max_hits - 1, by omega⟩
  obtain ⟨hh2, t2, hhits2⟩ : ∃ hh2 t2, r2.result.hits = hh2 :: t2 := by
    cases h2 : r2.result.hits with
    | nil => exact absurd h2 hne2
    | cons a b => exact ⟨a, b, rfl⟩
  have hrc : initCursor r = some ⟨r.index_uid, t, hh⟩ := by simp [initCursor, hhits]
  have hr2c : initCursor r2 = some ⟨r2.index_uid, t2, hh2⟩ := by simp [initCursor, hhits2]
  obtain ⟨s, t3, rfl⟩ := List.append_of_mem hr
  have hc : (⟨r.index_uid, t, hh⟩ : Cursor) ∈ (s ++ r :: t3).filterMap initCursor :=
    List.mem_filterMap.mpr ⟨r, by simp, hrc⟩
  have hlen : 2 ≤ ((s ++ r :: t3).filterMap initCursor).length := by
    rcases List.mem_append.mp hr2 with h | h
    · have hmem : (⟨r2.index_uid, t2, hh2⟩ : Cursor) ∈ s.filterMap initCursor :=
        List.mem_filterMap.mpr ⟨r2, h, hr2c⟩
      have hpos := List.length_pos_of_mem hmem
      simp only [List.filterMap_append, List.filterMap_cons, hrc, List.length_append,
        List.length_cons]
      omega
    · rcases List.mem_cons.mp h with rfl | h
      · exact absurd rfl hrne
      · have hmem : (⟨r2.index_uid, t2, hh2⟩ : Cursor) ∈ t3.filterMap initCursor :=
          List.mem_filterMap.mpr ⟨r2, h, hr2c⟩
        have hpos := List.length_pos_of_mem hmem
        simp only [List.filterMap_append, List.filterMap_cons, hrc, List.length_append,
          List.length_cons]
        omega
  have hsort : sortCursors? ((s ++ r :: t3).filterMap initCursor) = none := by
    unfold sortCursors?
    rw [if_pos]
    refine ⟨hlen, fun hall => ?_⟩
    have := List.all_eq_true.mp hall _ hc
    simp [hnone] at this
  show mergeLoop (m + 1) ((s ++ r :: t3).filterMap initCursor) = none
  simp only [mergeLoop, hsort]

/-- C4 witness: the amended theorem applied to two non-empty results whose
first result's head hit lacks a score. -/
theorem C4_witness :
    merge_by_normalized_score resultsTwoHeadUnscored 1 = none :=
  C4_unscored_head_fails resultsTwoHeadUnscored 1 (le_refl 1)
    ⟨"A", ⟨[⟨1, none⟩]⟩⟩ ⟨"B", ⟨[⟨2, some (mkRat 8 10)⟩]⟩⟩
    (by decide) (by decide) (by decide)
    ⟨1, none⟩ [] rfl rfl (by decide)

/-- C3: for every non-empty batch, the handler's max_hits computation
returns the maximum over all queries of (hits_per_page if set, else limit);
and every merge-by-normalized-score invocation that produces an output
produces exactly min(max_hits, total hits) entries — hence at most max_hits,
with equality exactly when the total number of hits across all per-query
results is at least max_hits. -/
theorem C3_max_hits_bound (params : SearchQueries) (hne : params.queries ≠ []) :
    ∃ m, (params.queries.map fun q => q.hits_per_page.getD q.limit).max? = some m ∧
      (∀ q ∈ params.queries, q.hits_per_page.getD q.limit ≤ m) ∧
      (∃ q ∈ params.queries, q.hits_per_page.getD q.limit = m) ∧
      ∀ search_results out, merge_by_normalized_score search_results m = some out →
        out.length ≤ m ∧ (out.length = m ↔ m ≤ totalHits search_results) := by
  obtain ⟨m, hm, hub, hmem⟩ := maxHits_spec hne
  refine ⟨m, hm, hub, hmem, ?_⟩
  intro search_results out hout
  have hlen := merge_length hout
  constructor
  · omega
  · constructor
    · intro he
      omega
    · intro he
      omega

/-- C3 witness: the theorem applied to a concrete one-query batch with
limit 3, and its merge conclusion instantiated at the example input. -/
theorem C3_witness :
    ∃ m, (([⟨"A", 3, none, none⟩] : List SearchQueryWithIndex).map
        fun q => q.hits_per_page.getD q.limit).max? = some m ∧
      (∀ q ∈ ([⟨"A", 3, none, none⟩] : List SearchQueryWithIndex),
        q.hits_per_page.getD q.limit ≤ m) ∧
      (∃ q ∈ ([⟨"A", 3, none, none⟩] : List SearchQueryWithIndex),
        q.hits_per_page.getD q.limit = m) ∧
      ∀ search_results out, merge_by_normalized_score search_results m = some out →
        out.length ≤ m ∧ (out.length = m ↔ m ≤ totalHits search_results) :=
  C3_max_hits_bound ⟨[⟨"A", 3, none, none⟩], .None⟩ (by decide)

/-- C2: whenever the query at position i is the first to fail (for any
reason: authorization, resolution, or execution), the handler returns the
single error whose message is prefixed with position i, carries no
per-query results (the `failed` outcome has none), and no collaborator is
ever invoked for a position greater than i. -/
theorem C2_first_failure_all_or_nothing (env : Env) (params : SearchQueries)
    (i : Nat) (e : ResponseError)
    (hi : i < params.queries.length)
    (hfail : (processQuery env params.queries[i]).1 = .error e)
    (hok : ∀ q ∈ params.queries.take i, ∃ r, (processQuery env q).1 = .ok r) :
    ∃ err, (multi_search_with_post env params).1 = .failed err ∧
      err.message = "Inside `.queries[" ++ toString i ++ "]`: " ++ e.message ∧
      ∀ ev ∈ (multi_search_with_post env params).2, ev.1 ≤ i := by
  have hne : params.queries ≠ [] := by
    intro h0
    rw [h0] at hi
    simp at hi
  obtain ⟨m, hm, -, -⟩ := maxHits_spec hne
  obtain ⟨hloop, hlog⟩ := multiSearchLoop_first_fail 0 i hi hfail hok
  rw [Nat.zero_add] at hloop
  have hpost : multi_search_with_post env params
      = (.failed { e with
            message := "Inside `.queries[" ++ toString i ++ "]`: " ++ e.message },
          (multiSearchLoop env 0 params.queries).2) := by
    simp only [multi_search_with_post, hm, hloop]
  refine ⟨_, by rw [hpost], by simp, ?_⟩
  intro ev hev
  rw [hpost] at hev
  have := hlog ev hev
  omega

/-- C2 witness: the theorem applied to a concrete two-query batch whose
second query targets the unauthorized index `gamma`. -/
theorem C2_witness :
    ∃ err, (multi_search_with_post envDenyGamma ⟨[queryAlpha, queryGamma], .None⟩).1
        = .failed err ∧
      err.message = "Inside `.queries[" ++ toString 1 ++ "]`: "
        ++ (⟨"The provided API key is invalid.", 403⟩ : ResponseError).message ∧
      ∀ ev ∈ (multi_search_with_post envDenyGamma ⟨[queryAlpha, queryGamma], .None⟩).2,
        ev.1 ≤ 1 :=
  C2_first_failure_all_or_nothing envDenyGamma ⟨[queryAlpha, queryGamma], .None⟩ 1
    ⟨"The provided API key is invalid.", 403⟩ (by decide) rfl
    (fun q hq => by
      simp at hq
      subst hq
      exact ⟨⟨"alpha", ⟨[]⟩⟩, rfl⟩)

/-- C5 counterexample: with merge-by-score-details selected but the single
query unauthorized, the request fails with the position-tagged
authorization error, not with the "not implemented" condition — so the
claim does not hold for every input batch. -/
theorem C5_counterexample :
    (multi_search_with_post envDenyGamma ⟨[queryGamma], .ByScoreDetails⟩).1
      = .failed ⟨"Inside `.queries[0]`: The provided API key is invalid.", 403⟩ ∧
    (multi_search_with_post envDenyGamma ⟨[queryGamma], .ByScoreDetails⟩).1
      ≠ .panicked todoMsg := by
  exact ⟨by decide, by decide⟩

/-- C5 (amended): for every non-empty batch whose dispatch succeeds,
selecting merge-by-score-details makes the handler hit `todo!()` — it fails
with the "not implemented" panic and never falls back to another strategy
or to unmerged output. (When a query fails, the batch fails with that
query's positioned error before the strategy is consulted.) -/
theorem C5_score_details_panics (env : Env) (params : SearchQueries)
    (hne : params.queries ≠ [])
    (hstrat : params.merge_strategy = .ByScoreDetails)
    (hok : ∀ q ∈ params.queries, ∃ r, (processQuery env q).1 = .ok r) :
    (multi_search_with_post env params).1 = .panicked todoMsg := by
  obtain ⟨m, hm, -, -⟩ := maxHits_spec hne
  obtain ⟨results, hres, -, -⟩ := multiSearchLoop_all_ok 0 hok
  simp only [multi_search_with_post, hm, hres, hstrat]

/-- C5 witness: the amended theorem applied to a concrete all-authorized
one-query batch. -/
theorem C5_witness :
    (multi_search_with_post envTrivial ⟨[queryAlpha], .ByScoreDetails⟩).1
      = .panicked todoMsg :=
  C5_score_details_panics envTrivial ⟨[queryAlpha], .ByScoreDetails⟩ (by decide) rfl
    (fun q hq => by
      simp at hq
      subst hq
      exact ⟨⟨"alpha", ⟨[]⟩⟩, rfl⟩)

/-- C6: if the authorization capability denies the index at position i, the
only collaborator invocation ever made for position i is the authorization
check itself — the index is never resolved nor the query executed at that
position — and, when the earlier positions all succeed, the batch fails at
position i with the position-prefixed `InvalidToken` error, whose content
is independent of whether the denied index exists. -/
theorem C6_auth_denied_no_resolution (env : Env) (params : SearchQueries) (i : Nat)
    (hi : i < params.queries.length)
    (hdeny : env.is_index_authorized params.queries[i].index_uid = false) :
    (∀ ev ∈ (multi_search_with_post env params).2,
      ev.1 = i → ev.2 = .authCheck params.queries[i].index_uid) ∧
    ((∀ q ∈ params.queries.take i, ∃ r, (processQuery env q).1 = .ok r) →
      (multi_search_with_post env params).1 = .failed { env.invalid_token with
        message := "Inside `.queries[" ++ toString i ++ "]`: "
          ++ env.invalid_token.message }) := by
  have hne : params.queries ≠ [] := by
    intro h0
    rw [h0] at hi
    simp at hi
  constructor
  · intro ev hev hpos
    rw [handler_log env params hne] at hev
    obtain ⟨k, hk, h1, h2⟩ := multiSearchLoop_log 0 ev hev
    rw [Nat.zero_add] at h1
    have hki : k = i := by omega
    subst hki
    rw [processQuery_auth_denied hdeny] at h2
    simpa using h2
  · intro hok
    obtain ⟨m, hm, -, -⟩ := maxHits_spec hne
    have hfail : (processQuery env params.queries[i]).1 = .error env.invalid_token := by
      rw [processQuery_auth_denied hdeny]
    obtain ⟨hloop, -⟩ := multiSearchLoop_first_fail 0 i hi hfail hok
    rw [Nat.zero_add] at hloop
    simp only [multi_search_with_post, hm, hloop]

/-- C6 witness: the theorem applied to a concrete batch whose second query
targets the unauthorized index `gamma`. -/
theorem C6_witness :
    (∀ ev ∈ (multi_search_with_post envDenyGamma ⟨[queryAlpha, queryGamma], .None⟩).2,
      ev.1 = 1 → ev.2 = .authCheck "gamma") ∧
    ((∀ q ∈ ([queryAlpha, queryGamma].take 1),
        ∃ r, (processQuery envDenyGamma q).1 = .ok r) →
      (multi_search_with_post envDenyGamma ⟨[queryAlpha, queryGamma], .None⟩).1
        = .failed ⟨"Inside `.queries[" ++ toString 1 ++ "]`: "
            ++ "The provided API key is invalid.", 403⟩) :=
  C6_auth_denied_no_resolution envDenyGamma ⟨[queryAlpha, queryGamma], .None⟩ 1
    (by decide) rfl

/-- C7 counterexample: with three queries of which only position 2 targets
an unauthorized index, the execute events for positions 0 and 1 DO appear
in the log — their indexes are executed, contradicting the claim that they
never are. -/
theorem C7_counterexample :
    (0, EventKind.execute "alpha")
        ∈ (multi_search_with_post envDenyGamma
            ⟨[queryAlpha, queryBeta, queryGamma], .None⟩).2 ∧
    (1, EventKind.execute "beta")
        ∈ (multi_search_with_post envDenyGamma
            ⟨[queryAlpha, queryBeta, queryGamma], .None⟩).2 := by
  exact ⟨by decide, by decide⟩

/-- C7 (amended): for a batch of three queries where positions 0 and 1
succeed and position 2 targets an unauthorized index, the response is the
single error referencing position 2 and carrying no results; positions 0
and 1 ARE executed but their already-computed results are discarded from
the response; position 2 itself is never resolved nor executed (the only
event at position 2 is its authorization check). -/
theorem C7_third_query_unauthorized (env : Env) (q0 q1 q2 : SearchQueryWithIndex)
    (strategy : MergeStrategy) (r0 r1 : SearchResultWithIndex)
    (h0 : (processQuery env q0).1 = .ok r0)
    (h1 : (processQuery env q1).1 = .ok r1)
    (h2 : env.is_index_authorized q2.index_uid = false) :
    (multi_search_with_post env ⟨[q0, q1, q2], strategy⟩).1
      = .failed { env.invalid_token with
          message := "Inside `.queries[2]`: " ++ env.invalid_token.message } ∧
    (0, EventKind.execute q0.index_uid)
        ∈ (multi_search_with_post env ⟨[q0, q1, q2], strategy⟩).2 ∧
    (1, EventKind.execute q1.index_uid)
        ∈ (multi_search_with_post env ⟨[q0, q1, q2], strategy⟩).2 ∧
    ∀ ev ∈ (multi_search_with_post env ⟨[q0, q1, q2], strategy⟩).2,
      ev.1 = 2 → ev.2 = .authCheck q2.index_uid := by
  obtain ⟨-, hev0⟩ := processQuery_ok_shape h0
  obtain ⟨-, hev1⟩ := processQuery_ok_shape h1
  have hq2 := processQuery_auth_denied h2
  obtain ⟨m, hm, -, -⟩ := @maxHits_spec [q0, q1, q2] (by simp)
  have hloop1 : (multiSearchLoop env 0 [q0, q1, q2]).1
      = .error (env.invalid_token, 2) := by
    simp [multiSearchLoop, h0, h1, hq2, Except.map]
  have hlog : (multiSearchLoop env 0 [q0, q1, q2]).2
      = [(0, .authCheck q0.index_uid), (0, .resolveIndex q0.index_uid),
          (0, .execute q0.index_uid),
          (1, .authCheck q1.index_uid), (1, .resolveIndex q1.index_uid),
          (1, .execute q1.index_uid),
          (2, .authCheck q2.index_uid)] := by
    simp [multiSearchLoop, h0, h1, hq2, hev0, hev1, Except.map]
  have hpost2 : (multi_search_with_post env ⟨[q0, q1, q2], strategy⟩).2
      = (multiSearchLoop env 0 [q0, q1, q2]).2 :=
    handler_log env ⟨[q0, q1, q2], strategy⟩ (by simp)
  refine ⟨?_, ?_, ?_, ?_⟩
  · simp only [multi_search_with_post, hm, hloop1]
    rfl
  · rw [hpost2, hlog]
    simp
  · rw [hpost2, hlog]
    simp
  · intro ev hev
    rw [hpost2, hlog] at hev
    simp only [List.mem_cons, List.not_mem_nil, or_false] at hev
    rcases hev with rfl | rfl | rfl | rfl | rfl | rfl | rfl <;> simp

/-- C7 amended-theorem witness: the concrete three-query batch with `gamma`
unauthorized. -/
theorem C7_witness :
    (multi_search_with_post envDenyGamma
        ⟨[queryAlpha, queryBeta, queryGamma], .None⟩).1
      = .failed ⟨"Inside `.queries[2]`: " ++ "The provided API key is invalid.", 403⟩ ∧
    (0, EventKind.execute "alpha")
        ∈ (multi_search_with_post envDenyGamma
            ⟨[queryAlpha, queryBeta, queryGamma], .None⟩).2 ∧
    (1, EventKind.execute "beta")
        ∈ (multi_search_with_post envDenyGamma
            ⟨[queryAlpha, queryBeta, queryGamma], .None⟩).2 ∧
    ∀ ev ∈ (multi_search_with_post envDenyGamma
        ⟨[queryAlpha, queryBeta, queryGamma], .None⟩).2,
      ev.1 = 2 → ev.2 = .authCheck "gamma" :=
  C7_third_query_unauthorized envDenyGamma queryAlpha queryBeta queryGamma .None
    ⟨"alpha", ⟨[]⟩⟩ ⟨"beta", ⟨[]⟩⟩ rfl rfl rfl

/-- C8 counterexample: the empty batch vacuously satisfies "all queries
succeed" and selects no merge, yet the handler panics in the `max_hits`
unwrap instead of returning the (empty) ordered list of per-query
results. -/
theorem C8_counterexample :
    multi_search_with_post envTrivial ⟨[], .None⟩ = (.panicked unwrapNoneMsg, []) := rfl

/-- C8 (amended): for every NON-EMPTY batch in which all queries succeed
and the merge strategy is "no merge", the response carries the per-query
results one-to-one in input order, each tagged with its query's index
identifier, and the merged-hits field is `none` — which serde omits
entirely from the payload. -/
theorem C8_no_merge_results_in_order (env : Env) (params : SearchQueries)
    (hne : params.queries ≠ [])
    (hstrat : params.merge_strategy = .None)
    (hok : ∀ q ∈ params.queries, ∃ r, (processQuery env q).1 = .ok r) :
    ∃ results, (multi_search_with_post env params).1 = .ok ⟨none, results⟩ ∧
      results.length = params.queries.length ∧
      ∀ j, (hj1 : j < params.queries.length) → (hj2 : j < results.length) →
        (processQuery env params.queries[j]).1 = .ok results[j] ∧
        results[j].index_uid = params.queries[j].index_uid := by
  obtain ⟨m, hm, -, -⟩ := maxHits_spec hne
  obtain ⟨results, hres, hlen, hpt⟩ := multiSearchLoop_all_ok 0 hok
  refine ⟨results, ?_, hlen, ?_⟩
  · simp only [multi_search_with_post, hm, hres, hstrat]
  · intro j hj1 hj2
    have h := hpt j hj1 hj2
    exact ⟨h, (processQuery_ok_shape h).1⟩

/-- C8 witness: the amended theorem applied to a concrete one-query batch. -/
theorem C8_witness :
    ∃ results, (multi_search_with_post envTrivial ⟨[queryAlpha], .None⟩).1
        = .ok ⟨none, results⟩ ∧
      results.length = ([queryAlpha] : List SearchQueryWithIndex).length ∧
      ∀ j, (hj1 : j < ([queryAlpha] : List SearchQueryWithIndex).length) →
        (hj2 : j < results.length) →
        (processQuery envTrivial (([queryAlpha] : List SearchQueryWithIndex)[j])).1
            = .ok results[j] ∧
        results[j].index_uid = (([queryAlpha] : List SearchQueryWithIndex)[j]).index_uid :=
  C8_no_merge_results_in_order envTrivial ⟨[queryAlpha], .None⟩ (by decide) rfl
    (fun q hq => by
      simp at hq
      subst hq
      exact ⟨⟨"alpha", ⟨[]⟩⟩, rfl⟩)
